import Mathlib

/-!
Shallow embedding of `src/relax/align_ligand_conformer.py`.

The numeric type is a linear ordered field `α` (standing for exact real
arithmetic; the program's `np.sqrt` is kept as an explicit function
parameter `sq`, instantiated with `Real.sqrt` where a claim needs the
actual square root).  External library calls (RDKit molecule building and
conformer embedding, Bio.PDB parsing, SVD superposition) are inputs of the
embedded functions: the molecule is its list of atom symbols, the template
3D distance matrix is an input matrix, the conformer embedder is an oracle
`EmbedOracle`, and the SVD superimposer is an oracle returning a rotation
matrix and translation vector.  Everything the Python function itself
computes is translated line by line.
-/

namespace Umol

/-- A 3D point (one row of an N×3 numpy array). -/
structure Vec3 (α : Type) where
  x : α
  y : α
  z : α
deriving DecidableEq, Repr

/-- The origin, used as an (irrelevant, always in-range) list-indexing default. -/
def v0 {α : Type} [LinearOrderedField α] : Vec3 α := ⟨0, 0, 0⟩

/-- Squared Euclidean distance `np.sum((p-q)**2, axis=-1)` for one pair of rows. -/
def sqDist {α : Type} [LinearOrderedField α] (p q : Vec3 α) : α :=
  (p.x - q.x) ^ 2 + (p.y - q.y) ^ 2 + (p.z - q.z) ^ 2

/-- Dot product of two 3-vectors. -/
def dotV {α : Type} [LinearOrderedField α] (p q : Vec3 α) : α :=
  p.x * q.x + p.y * q.y + p.z * q.z

/-- A 3×3 matrix given by its three rows (numpy convention: `np.dot(v, R)`
takes the linear combination `v.x • r0 + v.y • r1 + v.z • r2`). -/
structure Mat3 (α : Type) where
  r0 : Vec3 α
  r1 : Vec3 α
  r2 : Vec3 α
deriving DecidableEq, Repr

/-- The identity 3×3 matrix. -/
def idM {α : Type} [LinearOrderedField α] : Mat3 α :=
  ⟨⟨1, 0, 0⟩, ⟨0, 1, 0⟩, ⟨0, 0, 1⟩⟩

/-- `R * Rᵀ`: its `(i,k)` entry is the dot product of rows `i` and `k` of `R`. -/
def matMulTranspose {α : Type} [LinearOrderedField α] (R : Mat3 α) : Mat3 α :=
  ⟨⟨dotV R.r0 R.r0, dotV R.r0 R.r1, dotV R.r0 R.r2⟩,
   ⟨dotV R.r1 R.r0, dotV R.r1 R.r1, dotV R.r1 R.r2⟩,
   ⟨dotV R.r2 R.r0, dotV R.r2 R.r1, dotV R.r2 R.r2⟩⟩

/-- Row-vector times matrix, `np.dot(v, R)` for a single coordinate row. -/
def vecMat {α : Type} [LinearOrderedField α] (v : Vec3 α) (R : Mat3 α) : Vec3 α :=
  ⟨v.x * R.r0.x + v.y * R.r1.x + v.z * R.r2.x,
   v.x * R.r0.y + v.y * R.r1.y + v.z * R.r2.y,
   v.x * R.r0.z + v.y * R.r1.z + v.z * R.r2.z⟩

/-- Componentwise vector addition (numpy broadcasting of `+ tran`). -/
def vadd {α : Type} [LinearOrderedField α] (v w : Vec3 α) : Vec3 α :=
  ⟨v.x + w.x, v.y + w.y, v.z + w.z⟩

/-- The regularizer `1e-10` appearing in both distance-matrix computations. -/
def eps {α : Type} [LinearOrderedField α] : α := 1 / 10 ^ 10

/-- One entry of a regularized distance matrix:
`np.sqrt(1e-10 + np.sum((P[:,None]-P[None,:])**2, axis=-1))[i,j]`. -/
def dmatEntry {α : Type} [LinearOrderedField α] (sq : α → α) (p q : Vec3 α) : α :=
  sq (eps + sqDist p q)

/-- The `ai, mi` loop of `generate_best_conformer`: walk the atoms with a
molecule-index counter `mi`, recording `mi` for each non-hydrogen atom.
The resulting list, read at position `ai`, is `bounds_mapping[ai]`. -/
def boundsMappingAux (atoms : List String) (mi : Nat) : List Nat :=
  match atoms with
  | [] => []
  | a :: rest =>
      if a ≠ "H" then mi :: boundsMappingAux rest (mi + 1)
      else boundsMappingAux rest (mi + 1)

/-- `bounds_mapping` as a list: entry `ai` is the molecule index of the
`ai`-th non-hydrogen atom (the dict's keys are `0..K-1` in order). -/
def boundsMapping (atoms : List String) : List Nat := boundsMappingAux atoms 0

/-- The iteration order of the double loop
`for i in range(len(bounds_keys)): for j in range(i+1, len(bounds_keys))`. -/
def heavyPairs (K : Nat) : List (Nat × Nat) :=
  (List.range K).flatMap fun i => (List.range' (i + 1) (K - (i + 1))).map fun j => (i, j)

/-- One iteration of the overwrite loop body.  The `try` block reads
`pred_dmat[i,j]` and `pred_dmat[j,i]`, which raises (and is silently
skipped via `except: continue`) exactly when an index is out of the
`N×N` predicted-distance matrix; otherwise both symmetric entries of the
bounds matrix are assigned.  The second assignment in the block is the
later one, so its branch is tested first. -/
def overwritePair {α : Type} [LinearOrderedField α] (N : Nat) (bm : List Nat)
    (pdm : Nat → Nat → α) (b : Nat → Nat → α) (p : Nat × Nat) : Nat → Nat → α :=
  if p.1 < N ∧ p.2 < N then
    fun r c =>
      if r = bm.getD p.2 0 ∧ c = bm.getD p.1 0 then pdm p.2 p.1
      else if r = bm.getD p.1 0 ∧ c = bm.getD p.2 0 then pdm p.1 p.2
      else b r c
  else b

/-- The whole overwrite loop: fold the per-pair body over all pairs. -/
def modifiedBounds {α : Type} [LinearOrderedField α] (N : Nat) (bm : List Nat)
    (pdm : Nat → Nat → α) (bounds : Nat → Nat → α) : Nat → Nat → α :=
  (heavyPairs bm.length).foldl (overwritePair N bm pdm) bounds

/-- `pred_dmat = np.sqrt(1e-10 + np.sum((pred_coords[:,None]-pred_coords[None,:])**2,axis=-1))`,
as a total function on indices (reads outside `N` raise in numpy; the
overwrite loop guards them, so the default value is never consulted there). -/
def gbcPredDmat {α : Type} [LinearOrderedField α] (sq : α → α)
    (pred_coords : List (Vec3 α)) : Nat → Nat → α :=
  fun i j => dmatEntry sq (pred_coords.getD i v0) (pred_coords.getD j v0)

/-- The bounds matrix after the heavy-atom overwrite loop of
`generate_best_conformer`. -/
def gbcBounds {α : Type} [LinearOrderedField α] (sq : α → α)
    (bounds0 : Nat → Nat → α) (atoms : List String) (pred_coords : List (Vec3 α)) :
    Nat → Nat → α :=
  modifiedBounds pred_coords.length (boundsMapping atoms) (gbcPredDmat sq pred_coords) bounds0

/-- Distance-geometry embedding parameters: `ps = ETKDGv3()` after
`ps.randomSeed = 0xf00d` and `ps.SetBoundsMat(bounds)`. -/
structure DGParams (α : Type) where
  randomSeed : Nat
  boundsMat : Nat → Nat → α

/-- The `ps` object built in `generate_best_conformer`. -/
def gbcParams {α : Type} [LinearOrderedField α] (sq : α → α)
    (bounds0 : Nat → Nat → α) (atoms : List String) (pred_coords : List (Vec3 α)) :
    DGParams α :=
  ⟨0xf00d, gbcBounds sq bounds0 atoms pred_coords⟩

/-- An embedding oracle standing for `Chem.rdDistGeom.EmbedMultipleConfs`:
given the molecule (its atom symbols), the conformer count, and the
optional parameter object, it returns the generated conformers, each a
total assignment of a 3D position to every atom index.  One oracle value
captures one run's random draws. -/
def EmbedOracle (α : Type) : Type :=
  List String → Nat → Option (DGParams α) → List (Nat → Vec3 α)

/-- `max_confs = 100`. -/
def max_confs : Nat := 100

/-- The conformer-generating call of `generate_best_conformer`:
`cids = Chem.rdDistGeom.EmbedMultipleConfs(m, max_confs)`.  Note the
source passes only the molecule and the count — `ps` is not an argument —
so the call is made with `none` for the parameter object, and the
template bounds matrix and predicted coordinates are not consulted. -/
def gbcConfs {α : Type} [LinearOrderedField α] (sq : α → α) (embed : EmbedOracle α)
    (atoms : List String) (bounds0 : Nat → Nat → α) (pred_coords : List (Vec3 α)) :
    List (Nat → Vec3 α) :=
  embed atoms max_confs none

/-- Per-conformer error:
`nonH_pos = pos[nonH_inds]`,
`conf_dmat = np.sqrt(1e-10 + np.sum((nonH_pos[:,None]-nonH_pos[None,:])**2,axis=-1))`,
`err = np.mean(np.sqrt(1e-10 + (conf_dmat-pred_dmat)**2))` —
the mean over all `K×K` entries of the elementwise smoothed deviation. -/
def confErr {α : Type} [LinearOrderedField α] (sq : α → α) (nonH_inds : List Nat)
    (pdm : Nat → Nat → α) (conf : Nat → Vec3 α) : α :=
  let K := nonH_inds.length
  (((List.range K).map fun i =>
      (((List.range K).map fun j =>
        sq (eps + (dmatEntry sq (conf (nonH_inds.getD i 0)) (conf (nonH_inds.getD j 0))
                    - pdm i j) ^ 2)).sum)).sum)
    / ((K * K : Nat) : α)

/-- The list `conf_errs` built by the scoring loop over `m.GetConformers()`. -/
def gbcConfErrs {α : Type} [LinearOrderedField α] (sq : α → α) (embed : EmbedOracle α)
    (atoms : List String) (bounds0 : Nat → Nat → α) (pred_coords : List (Vec3 α)) :
    List α :=
  (gbcConfs sq embed atoms bounds0 pred_coords).map
    (confErr sq (boundsMapping atoms) (gbcPredDmat sq pred_coords))

/-- `np.argmin`: index of the first occurrence of the minimum; raising on an
empty sequence is modelled as `none`. -/
def npArgmin {α : Type} [LinearOrder α] : List α → Option Nat
  | [] => none
  | x :: xs =>
      match npArgmin xs with
      | none => some 0
      | some j => if xs.getD j x < x then some (j + 1) else some 0

/-- `conf.GetPositions()`: the (numAtoms × 3) coordinate array of a conformer. -/
def getPositions {α : Type} [LinearOrderedField α] (numAtoms : Nat)
    (conf : Nat → Vec3 α) : List (Vec3 α) :=
  (List.range numAtoms).map conf

/-- The tuple returned by `generate_best_conformer`
(`best_conf` itself is carried as its position array and its index). -/
structure GBCResult (α : Type) where
  bestConfPos : List (Vec3 α)
  bestConfErr : α
  atomSymbols : List String
  nonHInds : List Nat
  bestConfId : Nat
deriving DecidableEq

/-- `generate_best_conformer`, from the embedding call to the returned tuple.
`np.argmin` on an empty `conf_errs` raises, i.e. the run fails: `none`. -/
def generate_best_conformer {α : Type} [LinearOrderedField α] (sq : α → α)
    (embed : EmbedOracle α) (atoms : List String) (bounds0 : Nat → Nat → α)
    (pred_coords : List (Vec3 α)) : Option (GBCResult α) :=
  let ps := gbcParams sq bounds0 atoms pred_coords
  let confs := gbcConfs sq embed atoms bounds0 pred_coords
  let conf_errs := gbcConfErrs sq embed atoms bounds0 pred_coords
  match npArgmin conf_errs with
  | none => none
  | some best_conf_id =>
      some { bestConfPos := getPositions atoms.length (confs.getD best_conf_id fun _ => v0),
             bestConfErr := conf_errs.getD best_conf_id 0,
             atomSymbols := atoms,
             nonHInds := boundsMapping atoms,
             bestConfId := best_conf_id }

/-- An SVD-superimposer oracle standing for `SVDSuperimposer`: from the
reference coordinates and the mobile coordinates it returns `(rot, tran)`. -/
def SupOracle (α : Type) : Type :=
  List (Vec3 α) → List (Vec3 α) → Mat3 α × Vec3 α

/-- `align_coords_transform`: superimpose `conf_pos[nonH_inds]` onto
`pred_pos`, then apply `np.dot(conf_pos, rot) + tran` to every row. -/
def align_coords_transform {α : Type} [LinearOrderedField α] (sup : SupOracle α)
    (pred_pos : List (Vec3 α)) (conf_pos : List (Vec3 α)) (nonH_inds : List Nat) :
    List (Vec3 α) :=
  let rt := sup pred_pos (nonH_inds.map fun i => conf_pos.getD i v0)
  conf_pos.map fun p => vadd (vecMat p rt.1) rt.2

/-- Euclidean distance between two points (exact-real semantics). -/
noncomputable def dist3 (p q : Vec3 ℝ) : ℝ := Real.sqrt (sqDist p q)

/-- `write_sdf`: for `i in range(mol.GetNumAtoms())` set the conformer's
atom `i` to `aligned_conf_pos[i]`; the written record carries the final
position of every atom of the molecule.  We return that position list. -/
def write_sdf {α : Type} [LinearOrderedField α] (numAtoms : Nat) (conf : Nat → Vec3 α)
    (aligned_conf_pos : List (Vec3 α)) : List (Vec3 α) :=
  getPositions numAtoms fun i =>
    if i < numAtoms then aligned_conf_pos.getD i (conf i) else conf i

/-! Concrete instances used by witnesses and counterexamples. -/

/-- A conformer with every atom at the origin. -/
def confZero {α : Type} [LinearOrderedField α] : Nat → Vec3 α := fun _ => v0

/-- A conformer placing atom 0 at the origin and every other atom at `(1,0,0)`. -/
def confUnit {α : Type} [LinearOrderedField α] : Nat → Vec3 α :=
  fun i => if i = 0 then v0 else ⟨1, 0, 0⟩

/-- An embedding run that produces one all-zero conformer when called with
default parameters and nothing when called with a parameter object. -/
def embedZeroRun {α : Type} [LinearOrderedField α] : EmbedOracle α :=
  fun _ _ p => match p with
    | none => [confZero]
    | some _ => []

/-- An embedding run that produces the `confUnit` conformer when called with
default parameters and nothing when called with a parameter object. -/
def embedUnitRun {α : Type} [LinearOrderedField α] : EmbedOracle α :=
  fun _ _ p => match p with
    | none => [confUnit]
    | some _ => []

/-- An embedding run producing one all-zero conformer for every call. -/
def embedAlways {α : Type} [LinearOrderedField α] : EmbedOracle α :=
  fun _ _ _ => [confZero]

/-- An embedding run that never produces a conformer. -/
def embedNothing {α : Type} [LinearOrderedField α] : EmbedOracle α :=
  fun _ _ _ => []

/-- An all-zero template bounds matrix. -/
def zeroBounds {α : Type} [LinearOrderedField α] : Nat → Nat → α := fun _ _ => 0

/-- A two-heavy-atom molecule (no hydrogens), as used by the counterexamples. -/
def atomsCC : List String := ["C", "C"]

/-- A single-heavy-atom molecule with two hydrogens (water after `AddHs`). -/
def atomsOHH : List String := ["O", "H", "H"]

/-- Two predicted positions at unit distance. -/
def predUnit {α : Type} [LinearOrderedField α] : List (Vec3 α) := [v0, ⟨1, 0, 0⟩]

/-- One predicted position at the origin. -/
def predOne {α : Type} [LinearOrderedField α] : List (Vec3 α) := [v0]

/-- A superimposer run returning the identity rotation and zero translation. -/
def supId {α : Type} [LinearOrderedField α] : SupOracle α := fun _ _ => (idM, v0)

/-! Helper lemmas. -/

theorem getD_default_eq {β : Type} (l : List β) {n : Nat} (h : n < l.length) (d d' : β) :
    l.getD n d = l.getD n d' := by
  rw [List.getD_eq_getElem l d h, List.getD_eq_getElem l d' h]

theorem getD_map_lt {β γ : Type} (f : β → γ) (l : List β) {k : Nat} (h : k < l.length)
    (d' : γ) (d : β) : (l.map f).getD k d' = f (l.getD k d) := by
  rw [List.getD_eq_getElem (l.map f) d' (by simpa using h), List.getD_eq_getElem l d h,
    List.getElem_map]

theorem boundsMappingAux_mem {atoms : List String} {mi e : Nat}
    (h : e ∈ boundsMappingAux atoms mi) :
    mi ≤ e ∧ e - mi < atoms.length ∧ atoms.getD (e - mi) "" ≠ "H" := by
  induction atoms generalizing mi with
  | nil => simp [boundsMappingAux] at h
  | cons a rest ih =>
      by_cases ha : a ≠ "H"
      · rw [boundsMappingAux, if_pos ha] at h
        rcases List.mem_cons.mp h with he | he
        · subst he
          refine ⟨Nat.le_refl _, by simp, ?_⟩
          simpa using ha
        · obtain ⟨h1, h2, h3⟩ := ih he
          refine ⟨by omega, by simp; omega, ?_⟩
          have : e - mi = (e - (mi + 1)) + 1 := by omega
          rw [this, List.getD_cons_succ]
          exact h3
      · rw [boundsMappingAux, if_neg ha] at h
        obtain ⟨h1, h2, h3⟩ := ih h
        refine ⟨by omega, by simp; omega, ?_⟩
        have : e - mi = (e - (mi + 1)) + 1 := by omega
        rw [this, List.getD_cons_succ]
        exact h3

theorem boundsMappingAux_pairwise (atoms : List String) (mi : Nat) :
    List.Pairwise (· < ·) (boundsMappingAux atoms mi) := by
  induction atoms generalizing mi with
  | nil => simp [boundsMappingAux]
  | cons a rest ih =>
      by_cases ha : a ≠ "H"
      · rw [boundsMappingAux, if_pos ha]
        refine List.Pairwise.cons (fun e he => ?_) (ih (mi + 1))
        have := (boundsMappingAux_mem he).1
        omega
      · rw [boundsMappingAux, if_neg ha]
        exact ih (mi + 1)

theorem boundsMapping_mem {atoms : List String} {e : Nat} (h : e ∈ boundsMapping atoms) :
    e < atoms.length ∧ atoms.getD e "" ≠ "H" := by
  have := boundsMappingAux_mem (show e ∈ boundsMappingAux atoms 0 from h)
  simpa using this

theorem boundsMapping_getD_mem (atoms : List String) {a : Nat}
    (ha : a < (boundsMapping atoms).length) :
    (boundsMapping atoms).getD a 0 ∈ boundsMapping atoms := by
  rw [List.getD_eq_getElem _ 0 ha]
  exact List.getElem_mem ha

theorem boundsMapping_strictMono (atoms : List String) {a b : Nat}
    (hab : a < b) (hb : b < (boundsMapping atoms).length) :
    (boundsMapping atoms).getD a 0 < (boundsMapping atoms).getD b 0 := by
  have ha : a < (boundsMapping atoms).length := Nat.lt_trans hab hb
  rw [List.getD_eq_getElem _ 0 ha, List.getD_eq_getElem _ 0 hb]
  exact List.pairwise_iff_getElem.mp (boundsMappingAux_pairwise atoms 0) a b ha hb hab

theorem boundsMapping_getD_inj (atoms : List String) {a b : Nat}
    (ha : a < (boundsMapping atoms).length) (hb : b < (boundsMapping atoms).length)
    (h : (boundsMapping atoms).getD a 0 = (boundsMapping atoms).getD b 0) : a = b := by
  rcases Nat.lt_trichotomy a b with hlt | heq | hgt
  · exact absurd h (Nat.ne_of_lt (boundsMapping_strictMono atoms hlt hb))
  · exact heq
  · exact absurd h.symm (Nat.ne_of_lt (boundsMapping_strictMono atoms hgt ha))

theorem heavyPairs_mem {K a b : Nat} : (a, b) ∈ heavyPairs K ↔ a < b ∧ b < K := by
  constructor
  · intro h
    simp only [heavyPairs, List.mem_flatMap, List.mem_map, List.mem_range,
      List.mem_range'_1] at h
    obtain ⟨i, hi, j, ⟨hj1, hj2⟩, hab⟩ := h
    obtain ⟨rfl, rfl⟩ := Prod.mk.injEq .. ▸ hab
    injection hab with h1 h2
    omega
  · rintro ⟨hab, hbK⟩
    simp only [heavyPairs, List.mem_flatMap, List.mem_map, List.mem_range,
      List.mem_range'_1]
    exact ⟨a, by omega, b, ⟨by omega, by omega⟩, rfl⟩

theorem foldl_overwrite_untouched {α : Type} [LinearOrderedField α] (N : Nat)
    (bm : List Nat) (pdm : Nat → Nat → α) (L : List (Nat × Nat)) (b : Nat → Nat → α)
    (r c : Nat)
    (h : ∀ p ∈ L, p.1 < N → p.2 < N →
      ¬(r = bm.getD p.2 0 ∧ c = bm.getD p.1 0) ∧ ¬(r = bm.getD p.1 0 ∧ c = bm.getD p.2 0)) :
    (L.foldl (overwritePair N bm pdm) b) r c = b r c := by
  induction L generalizing b with
  | nil => rfl
  | cons p L' ih =>
      rw [List.foldl_cons]
      rw [ih (overwritePair N bm pdm b p) fun q hq => h q (List.mem_cons.mpr (Or.inr hq))]
      unfold overwritePair
      split
      · next hp =>
          obtain ⟨h1, h2⟩ := h p (List.mem_cons.mpr (Or.inl rfl)) hp.1 hp.2
          dsimp only
          rw [if_neg h1, if_neg h2]
      · rfl

theorem foldl_overwrite_written {α : Type} [LinearOrderedField α] (N : Nat)
    (bm : List Nat) (pdm : Nat → Nat → α) (i j : Nat)
    (hne : bm.getD i 0 ≠ bm.getD j 0) (L : List (Nat × Nat)) (b : Nat → Nat → α)
    (hmem : (i, j) ∈ L) (hiN : i < N) (hjN : j < N)
    (hsep : ∀ p ∈ L, p.1 < N → p.2 < N → p ≠ (i, j) →
      ¬(bm.getD p.1 0 = bm.getD i 0 ∧ bm.getD p.2 0 = bm.getD j 0) ∧
      ¬(bm.getD p.2 0 = bm.getD i 0 ∧ bm.getD p.1 0 = bm.getD j 0)) :
    (L.foldl (overwritePair N bm pdm) b) (bm.getD i 0) (bm.getD j 0) = pdm i j ∧
    (L.foldl (overwritePair N bm pdm) b) (bm.getD j 0) (bm.getD i 0) = pdm j i := by
  induction L generalizing b with
  | nil => simp at hmem
  | cons p L' ih =>
      rw [List.foldl_cons]
      by_cases hmem' : (i, j) ∈ L'
      · exact ih (overwritePair N bm pdm b p) hmem'
          fun q hq => hsep q (List.mem_cons.mpr (Or.inr hq))
      · have hp : p = (i, j) := by
          rcases List.mem_cons.mp hmem with he | he
          · exact he.symm
          · exact absurd he hmem'
        subst hp
        have huntouched : ∀ q ∈ L', q.1 < N → q.2 < N →
            (¬(bm.getD i 0 = bm.getD q.2 0 ∧ bm.getD j 0 = bm.getD q.1 0) ∧
             ¬(bm.getD i 0 = bm.getD q.1 0 ∧ bm.getD j 0 = bm.getD q.2 0)) ∧
            (¬(bm.getD j 0 = bm.getD q.2 0 ∧ bm.getD i 0 = bm.getD q.1 0) ∧
             ¬(bm.getD j 0 = bm.getD q.1 0 ∧ bm.getD i 0 = bm.getD q.2 0)) := by
          intro q hq hq1 hq2
          have hqne : q ≠ (i, j) := fun hqe => hmem' (hqe ▸ hq)
          obtain ⟨hs1, hs2⟩ := hsep q (List.mem_cons.mpr (Or.inr hq)) hq1 hq2 hqne
          constructor
          · exact ⟨fun ⟨e1, e2⟩ => hs2 ⟨e1.symm, e2.symm⟩, fun ⟨e1, e2⟩ => hs1 ⟨e1.symm, e2.symm⟩⟩
          · exact ⟨fun ⟨e1, e2⟩ => hs1 ⟨e2.symm, e1.symm⟩, fun ⟨e1, e2⟩ => hs2 ⟨e2.symm, e1.symm⟩⟩
        constructor
        · rw [foldl_overwrite_untouched N bm pdm L' _ _ _ fun q hq hq1 hq2 =>
            (huntouched q hq hq1 hq2).1]
          unfold overwritePair
          rw [if_pos ⟨hiN, hjN⟩]
          dsimp only
          rw [if_neg (fun ⟨e1, _⟩ => hne e1), if_pos ⟨rfl, rfl⟩]
        · rw [foldl_overwrite_untouched N bm pdm L' _ _ _ fun q hq hq1 hq2 =>
            (huntouched q hq hq1 hq2).2]
          unfold overwritePair
          rw [if_pos ⟨hiN, hjN⟩]
          dsimp only
          rw [if_pos ⟨rfl, rfl⟩]

theorem npArgmin_cons {α : Type} [LinearOrder α] (x : α) (xs : List α) :
    npArgmin (x :: xs) = match npArgmin xs with
      | none => some 0
      | some j => if xs.getD j x < x then some (j + 1) else some 0 := rfl

theorem npArgmin_eq_none_iff {α : Type} [LinearOrder α] {l : List α} :
    npArgmin l = none ↔ l = [] := by
  cases l with
  | nil => simp [npArgmin]
  | cons x xs =>
      rw [npArgmin_cons]
      rcases hx : npArgmin xs with _ | j
      · simp
      · dsimp only
        split <;> simp

theorem npArgmin_spec {α : Type} [LinearOrder α] (d : α) :
    ∀ (l : List α) (j : Nat), npArgmin l = some j →
      j < l.length ∧ (∀ k, k < l.length → l.getD j d ≤ l.getD k d) ∧
      (∀ k, k < j → l.getD j d < l.getD k d) := by
  intro l
  induction l with
  | nil => intro j h; simp [npArgmin] at h
  | cons x xs ih =>
      intro j h
      rw [npArgmin_cons] at h
      rcases hx : npArgmin xs with _ | j'
      · rw [hx] at h
        dsimp only at h
        injection h with h
        subst h
        have hnil : xs = [] := npArgmin_eq_none_iff.mp hx
        subst hnil
        refine ⟨by simp, fun k hk => ?_, fun k hk => by omega⟩
        have hk0 : k = 0 := by simpa using hk
        subst hk0
        simp
      · rw [hx] at h
        dsimp only at h
        obtain ⟨hlen, hmin, hstrict⟩ := ih j' hx
        have hdflt : xs.getD j' x = xs.getD j' d := getD_default_eq xs hlen x d
        split at h
        · next hlt =>
            injection h with h
            subst h
            rw [hdflt] at hlt
            refine ⟨by simp; omega, fun k hk => ?_, fun k hk => ?_⟩
            · match k with
              | 0 =>
                  rw [List.getD_cons_succ, List.getD_cons_zero]
                  exact le_of_lt hlt
              | k + 1 =>
                  rw [List.getD_cons_succ, List.getD_cons_succ]
                  exact hmin k (by simpa using hk)
            · match k with
              | 0 => simpa [List.getD_cons_succ] using hlt
              | k + 1 =>
                  rw [List.getD_cons_succ, List.getD_cons_succ]
                  exact hstrict k (by omega)
        · next hnlt =>
            injection h with h
            subst h
            rw [hdflt] at hnlt
            push_neg at hnlt
            refine ⟨by simp, fun k hk => ?_, fun k hk => by omega⟩
            match k with
            | 0 => simp
            | k + 1 =>
                rw [List.getD_cons_zero, List.getD_cons_succ]
                exact le_trans hnlt (hmin k (by simpa using hk))

/-! Claim theorems. -/

/-- C1 (amended): the conformer-embedding call of `generate_best_conformer`
passes only the molecule and `max_confs` — no parameter object — so the
generated conformers are those of a default-parameter embedding, and both
the conformer list and the full result are independent of the template
bounds matrix (the full result is also independent of the predicted
coordinates through the embedding, though not through the scoring). -/
theorem embed_call_uses_default_params {α : Type} [LinearOrderedField α] (sq : α → α)
    (embed : EmbedOracle α) (atoms : List String) (bounds0 bounds0' : Nat → Nat → α)
    (pred pred' : List (Vec3 α)) :
    gbcConfs sq embed atoms bounds0 pred = embed atoms max_confs none ∧
    gbcConfs sq embed atoms bounds0 pred = gbcConfs sq embed atoms bounds0' pred' ∧
    generate_best_conformer sq embed atoms bounds0 pred =
      generate_best_conformer sq embed atoms bounds0' pred :=
  ⟨rfl, rfl, rfl⟩

/-- C1 (counterexample): for an embedding run that behaves differently with
and without a parameter object, the conformers actually generated are not
the ones an embedding under the modified-bounds parameters would give. -/
theorem embed_call_not_constrained_cex :
    gbcConfs (id : ℚ → ℚ) embedZeroRun atomsCC zeroBounds predUnit ≠
      embedZeroRun atomsCC max_confs (some (gbcParams id zeroBounds atomsCC predUnit)) := by
  simp [gbcConfs, embedZeroRun]

/-- C2: when at least one conformer is generated, `generate_best_conformer`
returns the arg-min-error conformer: its error is ≤ every generated error,
every strictly earlier conformer has strictly larger error (ties broken by
lowest generation index), the returned error is the entry of `conf_errs` at
the returned index, which is also the error of the returned conformer, and
the returned position array is that of the index-th generated conformer. -/
theorem best_conformer_is_argmin {α : Type} [LinearOrderedField α] (sq : α → α)
    (embed : EmbedOracle α) (atoms : List String) (bounds0 : Nat → Nat → α)
    (pred : List (Vec3 α)) (h : gbcConfs sq embed atoms bounds0 pred ≠ []) :
    ∃ res, generate_best_conformer sq embed atoms bounds0 pred = some res ∧
      res.bestConfId < (gbcConfErrs sq embed atoms bounds0 pred).length ∧
      res.bestConfErr = (gbcConfErrs sq embed atoms bounds0 pred).getD res.bestConfId 0 ∧
      res.bestConfErr = confErr sq (boundsMapping atoms) (gbcPredDmat sq pred)
        ((gbcConfs sq embed atoms bounds0 pred).getD res.bestConfId fun _ => v0) ∧
      (∀ k, k < (gbcConfErrs sq embed atoms bounds0 pred).length →
        res.bestConfErr ≤ (gbcConfErrs sq embed atoms bounds0 pred).getD k 0) ∧
      (∀ k, k < res.bestConfId →
        res.bestConfErr < (gbcConfErrs sq embed atoms bounds0 pred).getD k 0) ∧
      res.bestConfPos = getPositions atoms.length
        ((gbcConfs sq embed atoms bounds0 pred).getD res.bestConfId fun _ => v0) := by
  have hne : gbcConfErrs sq embed atoms bounds0 pred ≠ [] := by
    simpa [gbcConfErrs, List.map_eq_nil_iff] using h
  rcases harg : npArgmin (gbcConfErrs sq embed atoms bounds0 pred) with _ | best_id
  · exact absurd (npArgmin_eq_none_iff.mp harg) hne
  · obtain ⟨hlen, hmin, hstrict⟩ := npArgmin_spec 0 _ best_id harg
    have hlen' : best_id < (gbcConfs sq embed atoms bounds0 pred).length := by
      simpa [gbcConfErrs, List.length_map] using hlen
    refine ⟨⟨getPositions atoms.length
        ((gbcConfs sq embed atoms bounds0 pred).getD best_id fun _ => v0),
        (gbcConfErrs sq embed atoms bounds0 pred).getD best_id 0,
        atoms, boundsMapping atoms, best_id⟩,
      ?_, hlen, rfl, ?_, hmin, fun k hk => hstrict k hk, rfl⟩
    · simp only [generate_best_conformer, harg]
    · rw [gbcConfErrs, getD_map_lt _ _ hlen' 0 fun _ => v0]

/-- C2 (witness): a run with one all-zero conformer, instantiating the
arg-min theorem concretely. -/
theorem best_conformer_is_argmin_witness :
    gbcConfs (id : ℚ → ℚ) embedAlways atomsCC zeroBounds predUnit ≠ [] ∧
    (∃ res, generate_best_conformer (id : ℚ → ℚ) embedAlways atomsCC zeroBounds predUnit
        = some res ∧
      res.bestConfId < (gbcConfErrs (id : ℚ → ℚ) embedAlways atomsCC zeroBounds predUnit).length ∧
      res.bestConfErr
        = (gbcConfErrs (id : ℚ → ℚ) embedAlways atomsCC zeroBounds predUnit).getD res.bestConfId 0 ∧
      res.bestConfErr = confErr (id : ℚ → ℚ) (boundsMapping atomsCC)
        (gbcPredDmat (id : ℚ → ℚ) predUnit)
        ((gbcConfs (id : ℚ → ℚ) embedAlways atomsCC zeroBounds predUnit).getD res.bestConfId
          fun _ => v0) ∧
      (∀ k, k < (gbcConfErrs (id : ℚ → ℚ) embedAlways atomsCC zeroBounds predUnit).length →
        res.bestConfErr
          ≤ (gbcConfErrs (id : ℚ → ℚ) embedAlways atomsCC zeroBounds predUnit).getD k 0) ∧
      (∀ k, k < res.bestConfId →
        res.bestConfErr
          < (gbcConfErrs (id : ℚ → ℚ) embedAlways atomsCC zeroBounds predUnit).getD k 0) ∧
      res.bestConfPos = getPositions atomsCC.length
        ((gbcConfs (id : ℚ → ℚ) embedAlways atomsCC zeroBounds predUnit).getD res.bestConfId
          fun _ => v0)) :=
  ⟨by simp [gbcConfs, embedAlways],
   best_conformer_is_argmin id embedAlways atomsCC zeroBounds predUnit
     (by simp [gbcConfs, embedAlways])⟩

/-- C3 (amended): the result of `generate_best_conformer` is a function of
the run's default-parameter embedding alone: two runs whose embeddings
agree on the (molecule, `max_confs`, no-parameters) call give identical
results, whatever either run would have produced under the seeded,
bounds-carrying parameter object. -/
theorem result_determined_by_default_embedding {α : Type} [LinearOrderedField α]
    (sq : α → α) (o1 o2 : EmbedOracle α) (atoms : List String)
    (bounds0 : Nat → Nat → α) (pred : List (Vec3 α))
    (h : o1 atoms max_confs none = o2 atoms max_confs none) :
    generate_best_conformer sq o1 atoms bounds0 pred =
      generate_best_conformer sq o2 atoms bounds0 pred := by
  simp only [generate_best_conformer, gbcConfErrs, gbcConfs, h]

/-- C3 (amended, witness): two syntactically different runs agreeing on the
default-parameter call produce the same result. -/
theorem result_determined_by_default_embedding_witness :
    (embedAlways : EmbedOracle ℚ) atomsCC max_confs none
      = embedZeroRun atomsCC max_confs none ∧
    generate_best_conformer (id : ℚ → ℚ) embedAlways atomsCC zeroBounds predUnit =
      generate_best_conformer (id : ℚ → ℚ) embedZeroRun atomsCC zeroBounds predUnit :=
  ⟨rfl, result_determined_by_default_embedding id embedAlways embedZeroRun atomsCC
    zeroBounds predUnit rfl⟩

/-- C4: a heavy-atom pair `(i, j)`, `i < j`, whose predicted-distance lookup
is in range has both symmetric bounds entries overwritten with the
predicted distances; a pair whose lookup is out of range is skipped,
leaving its two template entries unchanged. -/
theorem bounds_overwrite_pairs {α : Type} [LinearOrderedField α] (sq : α → α)
    (bounds0 : Nat → Nat → α) (atoms : List String) (pred : List (Vec3 α)) (i j : Nat)
    (hij : i < j) (hj : j < (boundsMapping atoms).length) :
    (i < pred.length ∧ j < pred.length →
      gbcBounds sq bounds0 atoms pred ((boundsMapping atoms).getD i 0)
          ((boundsMapping atoms).getD j 0) = gbcPredDmat sq pred i j ∧
      gbcBounds sq bounds0 atoms pred ((boundsMapping atoms).getD j 0)
          ((boundsMapping atoms).getD i 0) = gbcPredDmat sq pred j i) ∧
    (¬(i < pred.length ∧ j < pred.length) →
      gbcBounds sq bounds0 atoms pred ((boundsMapping atoms).getD i 0)
          ((boundsMapping atoms).getD j 0)
        = bounds0 ((boundsMapping atoms).getD i 0) ((boundsMapping atoms).getD j 0) ∧
      gbcBounds sq bounds0 atoms pred ((boundsMapping atoms).getD j 0)
          ((boundsMapping atoms).getD i 0)
        = bounds0 ((boundsMapping atoms).getD j 0) ((boundsMapping atoms).getD i 0)) := by
  have hi : i < (boundsMapping atoms).length := Nat.lt_trans hij hj
  have hne : (boundsMapping atoms).getD i 0 ≠ (boundsMapping atoms).getD j 0 :=
    Nat.ne_of_lt (boundsMapping_strictMono atoms hij hj)
  constructor
  · rintro ⟨hiN, hjN⟩
    have hsep : ∀ p ∈ heavyPairs (boundsMapping atoms).length,
        p.1 < pred.length → p.2 < pred.length → p ≠ (i, j) →
        ¬((boundsMapping atoms).getD p.1 0 = (boundsMapping atoms).getD i 0 ∧
          (boundsMapping atoms).getD p.2 0 = (boundsMapping atoms).getD j 0) ∧
        ¬((boundsMapping atoms).getD p.2 0 = (boundsMapping atoms).getD i 0 ∧
          (boundsMapping atoms).getD p.1 0 = (boundsMapping atoms).getD j 0) := by
      rintro ⟨p1, p2⟩ hp _ _ hpne
      obtain ⟨h12, h2K⟩ := heavyPairs_mem.mp hp
      have h1K : p1 < (boundsMapping atoms).length := Nat.lt_trans h12 h2K
      constructor
      · rintro ⟨e1, e2⟩
        have hp1 : p1 = i := boundsMapping_getD_inj atoms h1K hi e1
        have hp2 : p2 = j := boundsMapping_getD_inj atoms h2K hj e2
        exact hpne (by rw [hp1, hp2])
      · rintro ⟨e1, e2⟩
        have hp2 : p2 = i := boundsMapping_getD_inj atoms h2K hi e1
        have hp1 : p1 = j := boundsMapping_getD_inj atoms h1K hj e2
        omega
    exact foldl_overwrite_written pred.length (boundsMapping atoms)
      (gbcPredDmat sq pred) i j hne (heavyPairs (boundsMapping atoms).length) bounds0
      (heavyPairs_mem.mpr ⟨hij, hj⟩) hiN hjN hsep
  · intro hnotN
    constructor
    · apply foldl_overwrite_untouched
      rintro ⟨p1, p2⟩ hp hp1 hp2
      obtain ⟨h12, h2K⟩ := heavyPairs_mem.mp hp
      have h1K : p1 < (boundsMapping atoms).length := Nat.lt_trans h12 h2K
      constructor
      · rintro ⟨e1, e2⟩
        have hq2 : p2 = i := boundsMapping_getD_inj atoms h2K hi e1.symm
        have hq1 : p1 = j := boundsMapping_getD_inj atoms h1K hj e2.symm
        omega
      · rintro ⟨e1, e2⟩
        have hq1 : p1 = i := boundsMapping_getD_inj atoms h1K hi e1.symm
        have hq2 : p2 = j := boundsMapping_getD_inj atoms h2K hj e2.symm
        exact hnotN ⟨hq1 ▸ hp1, hq2 ▸ hp2⟩
    · apply foldl_overwrite_untouched
      rintro ⟨p1, p2⟩ hp hp1 hp2
      obtain ⟨h12, h2K⟩ := heavyPairs_mem.mp hp
      have h1K : p1 < (boundsMapping atoms).length := Nat.lt_trans h12 h2K
      constructor
      · rintro ⟨e1, e2⟩
        have hq2 : p2 = j := boundsMapping_getD_inj atoms h2K hj e1.symm
        have hq1 : p1 = i := boundsMapping_getD_inj atoms h1K hi e2.symm
        exact hnotN ⟨hq1 ▸ hp1, hq2 ▸ hp2⟩
      · rintro ⟨e1, e2⟩
        have hq1 : p1 = j := boundsMapping_getD_inj atoms h1K hj e1.symm
        have hq2 : p2 = i := boundsMapping_getD_inj atoms h2K hi e2.symm
        omega

/-- C4 (witness): the two heavy atoms of a two-atom molecule with two
in-range predicted positions get both symmetric entries overwritten. -/
theorem bounds_overwrite_pairs_witness :
    gbcBounds (id : ℚ → ℚ) zeroBounds atomsCC predUnit
        ((boundsMapping atomsCC).getD 0 0) ((boundsMapping atomsCC).getD 1 0) =
      gbcPredDmat (id : ℚ → ℚ) predUnit 0 1 ∧
    gbcBounds (id : ℚ → ℚ) zeroBounds atomsCC predUnit
        ((boundsMapping atomsCC).getD 1 0) ((boundsMapping atomsCC).getD 0 0) =
      gbcPredDmat (id : ℚ → ℚ) predUnit 1 0 :=
  (bounds_overwrite_pairs id zeroBounds atomsCC predUnit 0 1 (by decide) (by decide)).1
    ⟨by decide, by decide⟩

/-- C5: if the embedding call yields zero conformers, `conf_errs` is empty
and `np.argmin` raises — the run fails with an error instead of returning
a result. -/
theorem empty_conformer_set_fails {α : Type} [LinearOrderedField α] (sq : α → α)
    (embed : EmbedOracle α) (atoms : List String) (bounds0 : Nat → Nat → α)
    (pred : List (Vec3 α)) (h : gbcConfs sq embed atoms bounds0 pred = []) :
    generate_best_conformer sq embed atoms bounds0 pred = none := by
  simp only [generate_best_conformer, gbcConfErrs, h, List.map_nil, npArgmin]

/-- C5 (witness): a run that embeds nothing makes the generator fail. -/
theorem empty_conformer_set_fails_witness :
    gbcConfs (id : ℚ → ℚ) embedNothing atomsCC zeroBounds predUnit = [] ∧
    generate_best_conformer (id : ℚ → ℚ) embedNothing atomsCC zeroBounds predUnit = none :=
  ⟨rfl, empty_conformer_set_fails id embedNothing atomsCC zeroBounds predUnit rfl⟩

/-- C7: the error of the `k`-th generated conformer equals the mean, over all
`K×K` heavy-atom pair entries, of `sq(1e-10 + (conf_dmat[i,j] - pred_dmat[i,j])^2)`,
both distance matrices being `sq(1e-10 + squared Euclidean distance)`, the
conformer one over the heavy-atom coordinates in `bounds_mapping` order and
the target one over the predicted coordinates. -/
theorem conformer_error_formula {α : Type} [LinearOrderedField α] (sq : α → α)
    (embed : EmbedOracle α) (atoms : List String) (bounds0 : Nat → Nat → α)
    (pred : List (Vec3 α)) (k : Nat)
    (hk : k < (gbcConfs sq embed atoms bounds0 pred).length) :
    (gbcConfErrs sq embed atoms bounds0 pred).getD k 0 =
      (((List.range (boundsMapping atoms).length).map fun i =>
        (((List.range (boundsMapping atoms).length).map fun j =>
          sq (eps + (sq (eps + sqDist
              (((gbcConfs sq embed atoms bounds0 pred).getD k fun _ => v0)
                ((boundsMapping atoms).getD i 0))
              (((gbcConfs sq embed atoms bounds0 pred).getD k fun _ => v0)
                ((boundsMapping atoms).getD j 0)))
            - sq (eps + sqDist (pred.getD i v0) (pred.getD j v0))) ^ 2)).sum)).sum)
      / (((boundsMapping atoms).length * (boundsMapping atoms).length : Nat) : α) := by
  rw [gbcConfErrs, getD_map_lt _ _ hk 0 fun _ => v0]
  rfl

/-- C7 (witness): the formula instantiated on a concrete single-conformer run. -/
theorem conformer_error_formula_witness :
    0 < (gbcConfs (id : ℚ → ℚ) embedAlways atomsCC zeroBounds predUnit).length ∧
    (gbcConfErrs (id : ℚ → ℚ) embedAlways atomsCC zeroBounds predUnit).getD 0 0 =
      (((List.range (boundsMapping atomsCC).length).map fun i =>
        (((List.range (boundsMapping atomsCC).length).map fun j =>
          id (eps + (id (eps + sqDist
              (((gbcConfs (id : ℚ → ℚ) embedAlways atomsCC zeroBounds predUnit).getD 0
                  fun _ => v0) ((boundsMapping atomsCC).getD i 0))
              (((gbcConfs (id : ℚ → ℚ) embedAlways atomsCC zeroBounds predUnit).getD 0
                  fun _ => v0) ((boundsMapping atomsCC).getD j 0)))
            - id (eps + sqDist ((predUnit : List (Vec3 ℚ)).getD i v0)
                ((predUnit : List (Vec3 ℚ)).getD j v0))) ^ 2)).sum)).sum)
      / (((boundsMapping atomsCC).length * (boundsMapping atomsCC).length : Nat) : ℚ) :=
  ⟨by simp [gbcConfs, embedAlways],
   conformer_error_formula id embedAlways atomsCC zeroBounds predUnit 0
     (by simp [gbcConfs, embedAlways])⟩

/-- C9: the aligned coordinate array has exactly as many rows as the input
conformer coordinate array; for the position array of a conformer over a
graph with `numAtoms` atoms that count is `numAtoms`; and the written
record carries a position for every atom of the molecule, never fewer. -/
theorem output_atom_counts {α : Type} [LinearOrderedField α] (sup : SupOracle α)
    (pred : List (Vec3 α)) (nonH_inds : List Nat) (numAtoms : Nat)
    (conf : Nat → Vec3 α) :
    (∀ conf_pos : List (Vec3 α),
      (align_coords_transform sup pred conf_pos nonH_inds).length = conf_pos.length) ∧
    (align_coords_transform sup pred (getPositions numAtoms conf) nonH_inds).length
      = numAtoms ∧
    ∀ aligned : List (Vec3 α), (write_sdf numAtoms conf aligned).length = numAtoms := by
  refine ⟨fun conf_pos => ?_, ?_, fun aligned => ?_⟩
  · simp [align_coords_transform]
  · simp [align_coords_transform, getPositions]
  · simp [write_sdf, getPositions]

/-- C10: a bounds-matrix entry whose row or column index is a hydrogen atom
of the graph — or whose row and column coincide — is left unchanged by the
overwrite loop: only entries indexed by two distinct non-hydrogen atoms can
be overwritten. -/
theorem hydrogen_entries_unchanged {α : Type} [LinearOrderedField α] (sq : α → α)
    (bounds0 : Nat → Nat → α) (atoms : List String) (pred : List (Vec3 α)) (r c : Nat)
    (h : atoms.getD r "" = "H" ∨ atoms.getD c "" = "H" ∨ r = c) :
    gbcBounds sq bounds0 atoms pred r c = bounds0 r c := by
  apply foldl_overwrite_untouched
  rintro ⟨p1, p2⟩ hp hp1 hp2
  obtain ⟨h12, h2K⟩ := heavyPairs_mem.mp hp
  have h1K : p1 < (boundsMapping atoms).length := Nat.lt_trans h12 h2K
  have hm1 := boundsMapping_mem (boundsMapping_getD_mem atoms h1K)
  have hm2 := boundsMapping_mem (boundsMapping_getD_mem atoms h2K)
  rcases h with hr | hc | hrc
  · exact ⟨fun ⟨e1, _⟩ => hm2.2 (e1 ▸ hr), fun ⟨e1, _⟩ => hm1.2 (e1 ▸ hr)⟩
  · exact ⟨fun ⟨_, e2⟩ => hm1.2 (e2 ▸ hc), fun ⟨_, e2⟩ => hm2.2 (e2 ▸ hc)⟩
  · subst hrc
    constructor
    · rintro ⟨e1, e2⟩
      have : p1 = p2 := boundsMapping_getD_inj atoms h1K h2K (e2.symm.trans e1)
      omega
    · rintro ⟨e1, e2⟩
      have : p1 = p2 := boundsMapping_getD_inj atoms h1K h2K (e1.symm.trans e2)
      omega

/-- C10 (witness): a hydrogen row of the water molecule is untouched. -/
theorem hydrogen_entries_unchanged_witness :
    gbcBounds (id : ℚ → ℚ) zeroBounds atomsOHH predOne 1 0 = zeroBounds 1 0 :=
  hydrogen_entries_unchanged id zeroBounds atomsOHH predOne 1 0 (Or.inl (by decide))

theorem sqDist_vecMat_vadd {α : Type} [LinearOrderedField α] (R : Mat3 α) (t : Vec3 α)
    (h : matMulTranspose R = idM) (p q : Vec3 α) :
    sqDist (vadd (vecMat p R) t) (vadd (vecMat q R) t) = sqDist p q := by
  obtain ⟨⟨R00, R01, R02⟩, ⟨R10, R11, R12⟩, ⟨R20, R21, R22⟩⟩ := R
  simp only [matMulTranspose, idM, dotV, Mat3.mk.injEq, Vec3.mk.injEq] at h
  obtain ⟨⟨h00, h01, h02⟩, ⟨h10, h11, h12⟩, ⟨h20, h21, h22⟩⟩ := h
  simp only [sqDist, vadd, vecMat]
  linear_combination (p.x - q.x) ^ 2 * h00 + (p.y - q.y) ^ 2 * h11 +
    (p.z - q.z) ^ 2 * h22 + 2 * (p.x - q.x) * (p.y - q.y) * h01 +
    2 * (p.x - q.x) * (p.z - q.z) * h02 + 2 * (p.y - q.y) * (p.z - q.z) * h12

/-- C6: `align_coords_transform` applies `np.dot(·, rot) + tran` to every
atom of the conformer (heavy and hydrogen alike), and, when the rotation
matrix returned by the superimposer is orthogonal, the transform preserves
every pairwise intramolecular distance. -/
theorem align_applies_rigid_transform_all_atoms (sup : SupOracle ℝ)
    (pred_pos conf_pos : List (Vec3 ℝ)) (nonH_inds : List Nat)
    (horth : matMulTranspose
      (sup pred_pos (nonH_inds.map fun i => conf_pos.getD i v0)).1 = idM) :
    (align_coords_transform sup pred_pos conf_pos nonH_inds).length = conf_pos.length ∧
    (∀ i, i < conf_pos.length →
      (align_coords_transform sup pred_pos conf_pos nonH_inds).getD i v0 =
        vadd (vecMat (conf_pos.getD i v0)
            (sup pred_pos (nonH_inds.map fun i => conf_pos.getD i v0)).1)
          (sup pred_pos (nonH_inds.map fun i => conf_pos.getD i v0)).2) ∧
    (∀ i j, i < conf_pos.length → j < conf_pos.length →
      dist3 ((align_coords_transform sup pred_pos conf_pos nonH_inds).getD i v0)
            ((align_coords_transform sup pred_pos conf_pos nonH_inds).getD j v0) =
        dist3 (conf_pos.getD i v0) (conf_pos.getD j v0)) := by
  have hpt : ∀ i, i < conf_pos.length →
      (align_coords_transform sup pred_pos conf_pos nonH_inds).getD i v0 =
        vadd (vecMat (conf_pos.getD i v0)
            (sup pred_pos (nonH_inds.map fun i => conf_pos.getD i v0)).1)
          (sup pred_pos (nonH_inds.map fun i => conf_pos.getD i v0)).2 := by
    intro i hi
    simp only [align_coords_transform]
    exact getD_map_lt _ conf_pos hi v0 v0
  refine ⟨by simp [align_coords_transform], hpt, fun i j hi hj => ?_⟩
  rw [hpt i hi, hpt j hj, dist3, dist3]
  congr 1
  exact sqDist_vecMat_vadd _ _ horth _ _

/-- C6 (witness): the identity superposition on a concrete two-atom
conformer preserves the pairwise distance. -/
theorem align_applies_rigid_transform_all_atoms_witness :
    matMulTranspose
      ((supId : SupOracle ℝ) predOne ([0].map fun i =>
        (predUnit : List (Vec3 ℝ)).getD i v0)).1 = idM ∧
    dist3 ((align_coords_transform (supId : SupOracle ℝ) predOne predUnit [0]).getD 0 v0)
          ((align_coords_transform (supId : SupOracle ℝ) predOne predUnit [0]).getD 1 v0) =
      dist3 ((predUnit : List (Vec3 ℝ)).getD 0 v0) ((predUnit : List (Vec3 ℝ)).getD 1 v0) := by
  have horth : matMulTranspose
      ((supId : SupOracle ℝ) predOne ([0].map fun i =>
        (predUnit : List (Vec3 ℝ)).getD i v0)).1 = idM := by
    norm_num [supId, matMulTranspose, idM, dotV]
  exact ⟨horth, (align_applies_rigid_transform_all_atoms supId predOne predUnit [0]
    horth).2.2 0 1 (by norm_num [predUnit]) (by norm_num [predUnit])⟩

/-- C8 (amended): for a molecule with exactly one heavy atom, every
generated conformer's error equals `sq(1e-10)` — the floor imposed by the
epsilon regularizer — rather than exactly zero. -/
theorem single_heavy_error_eq_sq_eps {α : Type} [LinearOrderedField α] (sq : α → α)
    (embed : EmbedOracle α) (atoms : List String) (bounds0 : Nat → Nat → α)
    (pred : List (Vec3 α)) (k : Nat)
    (h1 : (boundsMapping atoms).length = 1)
    (hk : k < (gbcConfs sq embed atoms bounds0 pred).length) :
    (gbcConfErrs sq embed atoms bounds0 pred).getD k 0 = sq eps := by
  rw [gbcConfErrs, getD_map_lt _ _ hk 0 fun _ => v0]
  unfold confErr
  rw [h1]
  simp [List.range_succ, gbcPredDmat, dmatEntry, sqDist]

/-- C8 (amended, witness): a concrete one-heavy-atom run evaluates to the
epsilon floor. -/
theorem single_heavy_error_eq_sq_eps_witness :
    (boundsMapping atomsOHH).length = 1 ∧
    0 < (gbcConfs (id : ℚ → ℚ) embedAlways atomsOHH zeroBounds predOne).length ∧
    (gbcConfErrs (id : ℚ → ℚ) embedAlways atomsOHH zeroBounds predOne).getD 0 0
      = id (eps : ℚ) :=
  ⟨by decide, by simp [gbcConfs, embedAlways],
   single_heavy_error_eq_sq_eps id embedAlways atomsOHH zeroBounds predOne 0 (by decide)
     (by simp [gbcConfs, embedAlways])⟩

/-- C8 (counterexample): with the program's actual square root, the error of
a conformer of the one-heavy-atom molecule `O` (after `AddHs`) is
`sqrt(1e-10) = 1e-5`, which is not `0`. -/
theorem single_heavy_error_not_zero_cex :
    (gbcConfErrs Real.sqrt embedAlways atomsOHH zeroBounds
      (predOne : List (Vec3 ℝ))).getD 0 0 = 1 / 10 ^ 5 ∧ ((1 : ℝ) / 10 ^ 5) ≠ 0 := by
  constructor
  · have hbm : boundsMapping atomsOHH = [0] := by decide
    have heval : (gbcConfErrs Real.sqrt embedAlways atomsOHH zeroBounds
        (predOne : List (Vec3 ℝ))).getD 0 0 = Real.sqrt eps := by
      simp only [gbcConfErrs, gbcConfs, embedAlways, List.map_cons, List.map_nil,
        List.getD_cons_zero]
      unfold confErr
      rw [hbm]
      simp [List.range_succ, gbcPredDmat, dmatEntry, sqDist]
    rw [heval, show (eps : ℝ) = (1 / 10 ^ 5) ^ 2 by norm_num [eps]]
    exact Real.sqrt_sq (by norm_num)
  · norm_num

theorem gbc_single {α : Type} [LinearOrderedField α] (sq : α → α) (embed : EmbedOracle α)
    (atoms : List String) (bounds0 : Nat → Nat → α) (pred : List (Vec3 α))
    (c : Nat → Vec3 α) (h : embed atoms max_confs none = [c]) :
    (generate_best_conformer sq embed atoms bounds0 pred).map GBCResult.bestConfErr =
      some (confErr sq (boundsMapping atoms) (gbcPredDmat sq pred) c) := by
  simp only [generate_best_conformer, gbcConfErrs, gbcConfs, h, List.map_cons, List.map_nil]
  rfl

theorem confErr_confUnit_eval :
    confErr Real.sqrt (boundsMapping atomsCC) (gbcPredDmat Real.sqrt predUnit) confUnit
      = Real.sqrt eps := by
  rw [show boundsMapping atomsCC = [0, 1] by decide]
  unfold confErr
  simp [List.range_succ, gbcPredDmat, dmatEntry, sqDist, predUnit, confUnit, v0]
  ring_nf

theorem confErr_confZero_eval :
    confErr Real.sqrt (boundsMapping atomsCC) (gbcPredDmat Real.sqrt predUnit) confZero
      = (2 * Real.sqrt eps
         + 2 * Real.sqrt (eps + (Real.sqrt eps - Real.sqrt (eps + 1)) ^ 2)) / 4 := by
  rw [show boundsMapping atomsCC = [0, 1] by decide]
  unfold confErr
  simp [List.range_succ, gbcPredDmat, dmatEntry, sqDist, predUnit, confZero, v0]
  ring_nf

/-- C3 (counterexample): two runs with the same molecule, template matrix
and predicted coordinates, whose embeddings agree on every seeded
(parameter-object) call but draw different default-parameter conformers,
return different winning errors: the configured seed does not make the run
reproducible, because the parameter object carrying it is never passed. -/
theorem seeded_reproducibility_cex :
    (∀ (a : List String) (n : Nat) (q : DGParams ℝ),
      embedUnitRun a n (some q) = embedZeroRun a n (some q)) ∧
    (generate_best_conformer Real.sqrt embedUnitRun atomsCC zeroBounds predUnit).map
        GBCResult.bestConfErr ≠
      (generate_best_conformer Real.sqrt embedZeroRun atomsCC zeroBounds predUnit).map
        GBCResult.bestConfErr := by
  refine ⟨fun a n q => rfl, ?_⟩
  rw [gbc_single Real.sqrt embedUnitRun atomsCC zeroBounds predUnit confUnit rfl,
    gbc_single Real.sqrt embedZeroRun atomsCC zeroBounds predUnit confZero rfl,
    confErr_confUnit_eval, confErr_confZero_eval]
  have heps : (0 : ℝ) < eps := by norm_num [eps]
  have h1 : Real.sqrt eps < Real.sqrt (eps + 1) :=
    Real.sqrt_lt_sqrt (le_of_lt heps) (by linarith)
  have h2 : (0 : ℝ) < (Real.sqrt eps - Real.sqrt (eps + 1)) ^ 2 :=
    pow_two_pos_of_ne_zero (sub_ne_zero.mpr (ne_of_lt h1))
  have h3 : Real.sqrt eps < Real.sqrt (eps + (Real.sqrt eps - Real.sqrt (eps + 1)) ^ 2) :=
    Real.sqrt_lt_sqrt (le_of_lt heps) (by linarith)
  intro hcontra
  rw [Option.some.injEq] at hcontra
  linarith

end Umol
